import Mathlib

/-!
# Verification of the load-test orchestration core

Shallow embedding of the concurrency/orchestration core of the load-test
repository: the per-account nonce allocator (`getNonce` in `utils`), the
wallet-pool creation (`createMultipleWallets`), the tree fan-out rune
distribution (`distributeRunesToWallets` in `runes.ts`), the multi-recipient
edict builder (`createEdictForMultipleWallets`), the retry wrapper
(`edictRunesForSwap` in `bitcoin`), and the batched load-test statistics
aggregation (`runMultiWalletSwapLoadTest` in `tests/tps/index.ts`).

Maps are embedded as functions `String → Option Nat` (a JS object with
possibly-undefined entries); async code serialized by the mutex is embedded
as sequential state passing; `Promise.all` over fallible constructions is
embedded as `Except`-valued traversal.
-/

/-! ## Nonce allocation (`getNonce`, src/unnamed/part_001 lines 56-107)

The source keeps two module-level mutable maps keyed by the wallet's derived
EVM address: `noncesByAddress` (confirmed count last observed from the
backend) and `pendingNoncesByAddress` (next value to hand out).  The whole
read-modify-write runs under `nonceMutex`, so concurrent calls are
serialized; we embed one call as a pure state transition and N concurrent
calls as N sequential transitions. -/

structure NonceState where
  noncesByAddress : String → Option Nat
  pendingNoncesByAddress : String → Option Nat

/-- The empty initial state: both maps have no entries. -/
def NonceState.init : NonceState :=
  ⟨fun _ => none, fun _ => none⟩

/-- One `getNonce` call for the account with derived EVM address `evmAddress`,
when the backend reports transaction count `transactionCount`.  Mirrors the
body of the critical section in `getNonce`:
  * `noncesByAddress[evmAddress]` is set to the backend count if absent,
    otherwise to the max of the stored value and the backend count;
  * `pendingNoncesByAddress[evmAddress]` is initialized to
    `noncesByAddress[evmAddress]` only if absent;
  * the pending value is returned and the stored pending value incremented. -/
def getNonce (evmAddress : String) (transactionCount : Nat) (s : NonceState) :
    Nat × NonceState :=
  let confirmed : Nat :=
    match s.noncesByAddress evmAddress with
    | none => transactionCount
    | some v => max v transactionCount
  let nonce : Nat :=
    match s.pendingNoncesByAddress evmAddress with
    | none => confirmed
    | some p => p
  ⟨nonce,
   { noncesByAddress := fun a =>
       if a = evmAddress then some confirmed else s.noncesByAddress a,
     pendingNoncesByAddress := fun a =>
       if a = evmAddress then some (nonce + 1) else s.pendingNoncesByAddress a }⟩

/-- `n` serialized `getNonce` calls for the same account against a fixed
backend transaction count (no external issuance between calls), returning
the list of allocated nonces in call order and the final state. -/
def getNonceCalls (evmAddress : String) (transactionCount : Nat) :
    Nat → NonceState → List Nat × NonceState
  | 0, s => ⟨[], s⟩
  | n + 1, s =>
    let r := getNonce evmAddress transactionCount s
    let rest := getNonceCalls evmAddress transactionCount n r.2
    ⟨r.1 :: rest.1, rest.2⟩

/-- After any `getNonce` call the pending entry for the account holds the
returned nonce plus one. -/
theorem getNonce_pending_eq (a : String) (tc : Nat) (s : NonceState) :
    ((getNonce a tc s).2).pendingNoncesByAddress a = some ((getNonce a tc s).1 + 1) := by
  simp [getNonce]

/-- When the pending entry for the account is already set to `p`, `getNonce`
returns `p` regardless of the backend count. -/
theorem getNonce_of_pending (a : String) (tc p : Nat) (s : NonceState)
    (h : s.pendingNoncesByAddress a = some p) :
    (getNonce a tc s).1 = p := by
  simp [getNonce, h]

/-- Serialized calls issue a contiguous run: from any state, the `n` nonces
returned are `first, first+1, …, first+n-1` where `first` is what a single
call returns, and the pending counter ends at `first + n`. -/
theorem getNonceCalls_eq_range (a : String) (tc : Nat) :
    ∀ (n : Nat) (s : NonceState), 1 ≤ n →
      (getNonceCalls a tc n s).1 = List.range' (getNonce a tc s).1 n ∧
      ((getNonceCalls a tc n s).2).pendingNoncesByAddress a
        = some ((getNonce a tc s).1 + n) := by
  intro n
  induction n with
  | zero => intro s h; omega
  | succ m ih =>
    intro s _
    cases m with
    | zero =>
      refine ⟨?_, ?_⟩
      · simp [getNonceCalls, List.range']
      · simpa [getNonceCalls] using getNonce_pending_eq a tc s
    | succ k =>
      have hm : 1 ≤ k + 1 := Nat.succ_le_succ (Nat.zero_le k)
      have h2 := ih (getNonce a tc s).2 hm
      have hfirst : (getNonce a tc (getNonce a tc s).2).1 = (getNonce a tc s).1 + 1 :=
        getNonce_of_pending a tc ((getNonce a tc s).1 + 1) (getNonce a tc s).2
          (getNonce_pending_eq a tc s)
      refine ⟨?_, ?_⟩
      · show (getNonce a tc s).1 :: (getNonceCalls a tc (k + 1) (getNonce a tc s).2).1
            = List.range' (getNonce a tc s).1 (k + 2)
        rw [h2.1, hfirst]
        simp [List.range']
      · show ((getNonceCalls a tc (k + 1) (getNonce a tc s).2).2).pendingNoncesByAddress a
            = some ((getNonce a tc s).1 + (k + 2))
        rw [h2.2, hfirst]
        congr 1
        omega

/-- **C1.** For one account with uninitialized local counters and backend
count 5, two serialized `getNonce` calls return 5 and 6 and leave the
pending counter at 7; in general, from any state, `n` serialized calls with
a fixed backend count return `n` distinct values forming a contiguous run
(no duplicates, no gaps below the maximum issued). -/
theorem getNonce_allocation_unique (a : String) (tc n : Nat) (s : NonceState)
    (hn : 1 ≤ n) :
    (getNonceCalls a tc n s).1 = List.range' (getNonce a tc s).1 n ∧
    ((getNonceCalls a tc n s).1).Nodup ∧
    ((getNonceCalls a tc n s).1).length = n ∧
    (∀ z, (getNonce a tc s).1 ≤ z → z < (getNonce a tc s).1 + n →
      z ∈ (getNonceCalls a tc n s).1) ∧
    (getNonceCalls a 5 2 NonceState.init).1 = [5, 6] ∧
    ((getNonceCalls a 5 2 NonceState.init).2).pendingNoncesByAddress a = some 7 := by
  obtain ⟨h1, _⟩ := getNonceCalls_eq_range a tc n s hn
  refine ⟨h1, ?_, ?_, ?_, ?_, ?_⟩
  · rw [h1]; exact List.nodup_range' _ _
  · rw [h1]; exact List.length_range' _ _ _
  · intro z hz hz'
    rw [h1, List.mem_range'_1]
    exact ⟨hz, hz'⟩
  · simp [getNonceCalls, getNonce, NonceState.init]
  · simp [getNonceCalls, getNonce, NonceState.init]

/-- Witness for `getNonce_allocation_unique` at account `"acct"`, backend
count 5, two calls from the empty state. -/
theorem getNonce_allocation_unique_witness :
    1 ≤ 2 ∧
    ((getNonceCalls "acct" 5 2 NonceState.init).1
        = List.range' (getNonce "acct" 5 NonceState.init).1 2 ∧
      ((getNonceCalls "acct" 5 2 NonceState.init).1).Nodup ∧
      ((getNonceCalls "acct" 5 2 NonceState.init).1).length = 2 ∧
      (∀ z, (getNonce "acct" 5 NonceState.init).1 ≤ z →
        z < (getNonce "acct" 5 NonceState.init).1 + 2 →
        z ∈ (getNonceCalls "acct" 5 2 NonceState.init).1) ∧
      (getNonceCalls "acct" 5 2 NonceState.init).1 = [5, 6] ∧
      ((getNonceCalls "acct" 5 2 NonceState.init).2).pendingNoncesByAddress "acct"
        = some 7) :=
  ⟨by decide, getNonce_allocation_unique "acct" 5 2 NonceState.init (by decide)⟩

/-- **C2, counterexample.** Reachable state: three allocations for `"acct"`
against backend count 0 leave `noncesByAddress = 0`, `pending = 3`.  An
external party then issues transactions so the backend count observed is 10,
strictly above both cached counters; the next `getNonce` returns the stale
pending value 3, which is not strictly greater than the externally observed
count 10. -/
theorem getNonce_monotonicity_cex :
    ((getNonceCalls "acct" 0 3 NonceState.init).2).noncesByAddress "acct" = some 0 ∧
    ((getNonceCalls "acct" 0 3 NonceState.init).2).pendingNoncesByAddress "acct" = some 3 ∧
    (getNonce "acct" 10 (getNonceCalls "acct" 0 3 NonceState.init).2).1 = 3 ∧
    ¬ (getNonce "acct" 10 (getNonceCalls "acct" 0 3 NonceState.init).2).1 > 10 := by
  refine ⟨?_, ?_, ?_, ?_⟩ <;> simp [getNonceCalls, getNonce, NonceState.init]

/-- **C2, amended.** When the backend-observed count rises above the cached
counters, the next allocation is at least the observed count only when the
pending counter for the account is uninitialized (first allocation); it then
returns `max(cached confirmed, backend count)`.  An already-initialized
pending counter is returned unchanged even when below the backend count. -/
theorem getNonce_monotonicity_amended (a : String) (tc : Nat) (s : NonceState)
    (h : s.pendingNoncesByAddress a = none) :
    tc ≤ (getNonce a tc s).1 := by
  cases hc : s.noncesByAddress a <;> simp [getNonce, h, hc]

/-- Witness for `getNonce_monotonicity_amended` at the empty state with
backend count 5. -/
theorem getNonce_monotonicity_amended_witness :
    NonceState.init.pendingNoncesByAddress "acct" = none ∧
    5 ≤ (getNonce "acct" 5 NonceState.init).1 :=
  ⟨rfl, getNonce_monotonicity_amended "acct" 5 NonceState.init rfl⟩

/-- **C10.** A `getNonce` call for the account keyed by one derived EVM
address leaves the entries of every other address unchanged in both the
confirmed-nonce map and the pending-nonce map. -/
theorem getNonce_frame (a b : String) (tc : Nat) (s : NonceState) (h : b ≠ a) :
    ((getNonce a tc s).2).noncesByAddress b = s.noncesByAddress b ∧
    ((getNonce a tc s).2).pendingNoncesByAddress b = s.pendingNoncesByAddress b := by
  simp [getNonce, h]

/-- Witness for `getNonce_frame` at two distinct concrete addresses. -/
theorem getNonce_frame_witness :
    ("other" : String) ≠ "acct" ∧
    (((getNonce "acct" 5 NonceState.init).2).noncesByAddress "other"
        = NonceState.init.noncesByAddress "other" ∧
      ((getNonce "acct" 5 NonceState.init).2).pendingNoncesByAddress "other"
        = NonceState.init.pendingNoncesByAddress "other") :=
  ⟨by decide, getNonce_frame "acct" "other" 5 NonceState.init (by decide)⟩

/-! ## Multi-recipient edict builder (`createEdictForMultipleWallets`,
src/src/runes.ts lines 117-152)

The source slices the receiver list to the first two addresses
(`receiverAddresses.slice(0, 2)`) and builds, for each processed receiver,
one plain BTC transfer of `30_000 + Number(parseUnits(bitcoinAmount, 8))`
satoshis and one rune transfer of `runeAmount`.  The decimal-string →
satoshi conversion `parseUnits(·, 8)` is an exact external library function;
we embed its result as the `parsedBitcoinAmount` argument. -/

inductive EdictTransfer where
  | btc (receiver : String) (amount : Nat)
  | rune (receiver : String) (runeId : String) (amount : Nat)
  deriving DecidableEq, Repr

/-- The `transfers` array built by `createEdictForMultipleWallets`. -/
def createEdictForMultipleWallets (runeId : String) (parsedBitcoinAmount : Nat)
    (runeAmount : Nat) (receiverAddresses : List String) : List EdictTransfer :=
  let addressesToProcess := receiverAddresses.take 2
  addressesToProcess.flatMap fun receiver =>
    [EdictTransfer.btc receiver (30000 + parsedBitcoinAmount),
     EdictTransfer.rune receiver runeId runeAmount]

/-- **C9.** The builder silently processes only the first two receiver
addresses: its output equals the output on the truncated list, holds two
entries (one BTC transfer of `30000 + parsedBitcoinAmount`, one rune
transfer of `runeAmount`) per processed receiver, and extra receivers are
dropped without any error (the function is total). -/
theorem createEdict_processes_first_two (rid : String) (pb q : Nat)
    (rs : List String) :
    createEdictForMultipleWallets rid pb q rs
      = createEdictForMultipleWallets rid pb q (rs.take 2) ∧
    (createEdictForMultipleWallets rid pb q rs).length = 2 * min 2 rs.length ∧
    (∀ r1 r2 rest, rs = r1 :: r2 :: rest →
      createEdictForMultipleWallets rid pb q rs
        = [EdictTransfer.btc r1 (30000 + pb), EdictTransfer.rune r1 rid q,
           EdictTransfer.btc r2 (30000 + pb), EdictTransfer.rune r2 rid q]) := by
  refine ⟨?_, ?_, ?_⟩
  · simp [createEdictForMultipleWallets, List.take_take]
  · match rs with
    | [] => simp [createEdictForMultipleWallets]
    | [r1] => simp [createEdictForMultipleWallets]
    | r1 :: r2 :: rest => simp [createEdictForMultipleWallets, List.take_cons]
  · intro r1 r2 rest h
    subst h
    simp [createEdictForMultipleWallets, List.take_cons]

/-- Witness for `createEdict_processes_first_two` on a three-receiver list:
the third receiver is ignored. -/
theorem createEdict_processes_first_two_witness :
    createEdictForMultipleWallets "runeA" 1000 10 ["w1", "w2", "w3"]
      = createEdictForMultipleWallets "runeA" 1000 10 (["w1", "w2", "w3"].take 2) ∧
    (createEdictForMultipleWallets "runeA" 1000 10 ["w1", "w2", "w3"]).length
      = 2 * min 2 (["w1", "w2", "w3"] : List String).length ∧
    (∀ r1 r2 rest, (["w1", "w2", "w3"] : List String) = r1 :: r2 :: rest →
      createEdictForMultipleWallets "runeA" 1000 10 ["w1", "w2", "w3"]
        = [EdictTransfer.btc r1 (30000 + 1000), EdictTransfer.rune r1 "runeA" 10,
           EdictTransfer.btc r2 (30000 + 1000), EdictTransfer.rune r2 "runeA" 10]) :=
  createEdict_processes_first_two "runeA" 1000 10 ["w1", "w2", "w3"]

/-! ## Conservation of the distributed rune quantity
(src/src/runes.ts lines 231-256)

In each round a source wallet reads its rune balance and computes
`newBalance = BigInt(balance) / 3n`; that share is the per-receiver rune
amount handed to `createEdictForMultipleWallets`, which sends it to at most
two receivers. -/

/-- The per-receiver share a source computes from its balance at round
start: `newBalance = BigInt(runeBalance.balance) / 3n`. -/
def runeShare (balance : Nat) : Nat := balance / 3

/-- The rune quantity carried by a single transfer entry (BTC entries carry
no runes). -/
def runeQuantity : EdictTransfer → Nat
  | EdictTransfer.btc _ _ => 0
  | EdictTransfer.rune _ _ q => q

/-- Total rune quantity a source sends in one edict. -/
def totalRuneSent (runeId : String) (parsedBitcoinAmount runeAmount : Nat)
    (receiverAddresses : List String) : Nat :=
  ((createEdictForMultipleWallets runeId parsedBitcoinAmount runeAmount
      receiverAddresses).map runeQuantity).sum

/-- The total sent is the per-receiver amount times the number of processed
receivers (at most two). -/
theorem totalRuneSent_eq (rid : String) (pb q : Nat) (rs : List String) :
    totalRuneSent rid pb q rs = min 2 rs.length * q := by
  match rs with
  | [] => simp [totalRuneSent, createEdictForMultipleWallets, runeQuantity]
  | [r1] => simp [totalRuneSent, createEdictForMultipleWallets, runeQuantity]
  | r1 :: r2 :: rest =>
    simp [totalRuneSent, createEdictForMultipleWallets, List.take_cons, runeQuantity]
    omega

/-- **C4.** With the share computed as balance-at-round-start divided by 3
and at most two popped targets per source, the quantity transferred in one
round plus the remaining balance never exceeds the balance at round start;
in particular `2 * (b / 3) ≤ b` for every natural `b`. -/
theorem distribution_round_conservation (b : Nat) (rid : String) (pb : Nat)
    (rs : List String) :
    totalRuneSent rid pb (runeShare b) rs ≤ b ∧
    totalRuneSent rid pb (runeShare b) rs
      + (b - totalRuneSent rid pb (runeShare b) rs) ≤ b ∧
    2 * runeShare b ≤ b := by
  have hdiv : b / 3 * 3 ≤ b := Nat.div_mul_le_self b 3
  have hsent : totalRuneSent rid pb (runeShare b) rs = min 2 rs.length * (b / 3) :=
    totalRuneSent_eq rid pb (runeShare b) rs
  have hle : totalRuneSent rid pb (runeShare b) rs ≤ b := by
    rw [hsent]
    have : min 2 rs.length * (b / 3) ≤ 2 * (b / 3) :=
      Nat.mul_le_mul_right _ (Nat.min_le_left _ _)
    omega
  exact ⟨hle, by omega, by unfold runeShare; omega⟩

/-! ## Retry wrapper (`edictRunesForSwap`, src/unnamed/part_000 lines 66-90)

The source tries `edictRune`; on failure with `retry === 0` it throws
`Error("Failed to edict runes: " + error)`, otherwise it sleeps a fixed
1000 ms and recurses with `retry - 1`.  We embed the fallible operation as a
function from the attempt index to an `Except` outcome and record the result
together with the number of attempts performed and the list of sleeps. -/

structure RetryTrace (α : Type) where
  result : Except String α
  attemptsMade : Nat
  delaysMs : List Nat
  deriving Repr

/-- `edictRunesForSwap attempt retry k`: run the operation with retry budget
`retry`, where `attempt i` is the outcome of the `i`-th underlying
`edictRune` call and `k` is the index of the next attempt. -/
def edictRunesForSwap {α : Type} (attempt : Nat → Except String α) :
    Nat → Nat → RetryTrace α
  | 0, k =>
    match attempt k with
    | Except.ok a => ⟨Except.ok a, 1, []⟩
    | Except.error e => ⟨Except.error ("Failed to edict runes: " ++ e), 1, []⟩
  | r + 1, k =>
    match attempt k with
    | Except.ok a => ⟨Except.ok a, 1, []⟩
    | Except.error _ =>
      let rest := edictRunesForSwap attempt r (k + 1)
      ⟨rest.result, rest.attemptsMade + 1, 1000 :: rest.delaysMs⟩

/-- When every attempt fails, the run from attempt index `k` with budget `r`
makes `r + 1` attempts, sleeps the fixed delay `r` times, and fails wrapping
the last underlying error. -/
theorem edictRunesForSwap_all_fail {α : Type} (attempt : Nat → Except String α)
    (err : Nat → String) (hfail : ∀ k, attempt k = Except.error (err k)) :
    ∀ (r k : Nat),
      edictRunesForSwap attempt r k
        = ⟨Except.error ("Failed to edict runes: " ++ err (k + r)), r + 1,
           List.replicate r 1000⟩ := by
  intro r
  induction r with
  | zero => intro k; simp [edictRunesForSwap, hfail k]
  | succ m ih =>
    intro k
    have hk := hfail k
    simp only [edictRunesForSwap, hk]
    rw [ih (k + 1)]
    have : k + 1 + m = k + (m + 1) := by omega
    simp [this, List.replicate_succ]

/-- **C8.** With retry budget `r`, if the underlying edict fails on every
attempt then `edictRunesForSwap` performs exactly `r + 1` attempts separated
by the fixed 1000 ms delay and fails with an error wrapping the last
underlying error; and whenever the first attempt of a run succeeds, its
result is returned after exactly one attempt with no delay. -/
theorem edictRunesForSwap_retry_exhaustion {α : Type}
    (attempt : Nat → Except String α) (err : Nat → String) (r : Nat)
    (hfail : ∀ k, attempt k = Except.error (err k)) :
    (edictRunesForSwap attempt r 0).attemptsMade = r + 1 ∧
    (edictRunesForSwap attempt r 0).result
      = Except.error ("Failed to edict runes: " ++ err r) ∧
    (edictRunesForSwap attempt r 0).delaysMs = List.replicate r 1000 ∧
    (∀ (attempt2 : Nat → Except String α) (a : α) (r2 : Nat),
      attempt2 0 = Except.ok a →
      edictRunesForSwap attempt2 r2 0 = ⟨Except.ok a, 1, []⟩) := by
  have h := edictRunesForSwap_all_fail attempt err hfail r 0
  refine ⟨?_, ?_, ?_, ?_⟩
  · rw [h]
  · rw [h]; simp
  · rw [h]
  · intro attempt2 a r2 hok
    cases r2 <;> simp [edictRunesForSwap, hok]

/-- Witness for `edictRunesForSwap_retry_exhaustion`: budget 2, every
attempt failing with `"boom"`. -/
theorem edictRunesForSwap_retry_exhaustion_witness :
    (edictRunesForSwap (fun _ => (Except.error "boom" : Except String Nat)) 2 0).attemptsMade
      = 2 + 1 ∧
    (edictRunesForSwap (fun _ => (Except.error "boom" : Except String Nat)) 2 0).result
      = Except.error ("Failed to edict runes: " ++ "boom") ∧
    (edictRunesForSwap (fun _ => (Except.error "boom" : Except String Nat)) 2 0).delaysMs
      = List.replicate 2 1000 ∧
    (∀ (attempt2 : Nat → Except String Nat) (a : Nat) (r2 : Nat),
      attempt2 0 = Except.ok a →
      edictRunesForSwap attempt2 r2 0 = ⟨Except.ok a, 1, []⟩) :=
  edictRunesForSwap_retry_exhaustion (fun _ => Except.error "boom")
    (fun _ => "boom") 2 (fun _ => rfl)

/-! ## Wallet pool creation (`createMultipleWallets`, src/unnamed/part_001
lines 130-201)

The source reads the persisted mnemonic list, seeds it with one fixed
mnemonic when empty, appends fresh random mnemonics while the list is
shorter than `count`, persists the full list, and derives one wallet from
each of the first `count` mnemonics.  Randomness (`generateRandomMnemonic`,
backed by `crypto.randomBytes`) is embedded as a stream `draw : Nat → String`
consumed at an explicit position, and the deterministic derivation chain
(bip39 seed → bip32 path → key pair → address) as an arbitrary function of
the mnemonic. -/

/-- The fixed well-known mnemonic used for the first wallet when no
persisted store exists. -/
def fixedFirstMnemonic : String :=
  "fixed deterministic mnemonic for first wallet always the samq"

/-- `n` consecutive draws from the randomness stream starting at `pos`. -/
def drawList (draw : Nat → String) : Nat → Nat → List String
  | _, 0 => []
  | pos, n + 1 => draw pos :: drawList draw (pos + 1) n

/-- The generation loop: append `n` fresh mnemonics to the stored list,
advancing the randomness position. -/
def appendDraws (draw : Nat → String) : Nat → List String → Nat → List String × Nat
  | 0, stored, pos => (stored, pos)
  | n + 1, stored, pos => appendDraws draw n (stored ++ [draw pos]) (pos + 1)

/-- The stored list after the empty-store check: an empty persisted store is
seeded with the fixed first mnemonic. -/
def storeBase (storedMnemonics : List String) : List String :=
  if storedMnemonics.isEmpty then [fixedFirstMnemonic] else storedMnemonics

/-- `createMultipleWallets count` over persisted store `storedMnemonics` and
randomness position `pos`: returns (the mnemonics of the `count` wallets
created, the persisted store afterwards, the new randomness position).  The
`while (storedMnemonics.length < count)` loop appends exactly
`count - length` fresh draws. -/
def createMultipleWallets (draw : Nat → String) (count : Nat)
    (storedMnemonics : List String) (pos : Nat) :
    List String × List String × Nat :=
  let base := storeBase storedMnemonics
  let padded := appendDraws draw (count - base.length) base pos
  (padded.1.take count, padded.1, padded.2)

theorem drawList_length (draw : Nat → String) :
    ∀ (n pos : Nat), (drawList draw pos n).length = n := by
  intro n
  induction n with
  | zero => intro pos; rfl
  | succ m ih => intro pos; simp [drawList, ih (pos + 1)]

theorem drawList_append (draw : Nat → String) :
    ∀ (a : Nat) (pos b : Nat),
      drawList draw pos (a + b) = drawList draw pos a ++ drawList draw (pos + a) b := by
  intro a
  induction a with
  | zero => intro pos b; simp [drawList]
  | succ m ih =>
    intro pos b
    have h1 : m + 1 + b = (m + b) + 1 := by omega
    rw [h1]
    simp only [drawList, List.cons_append, ih (pos + 1) b]
    have h2 : pos + 1 + m = pos + (m + 1) := by omega
    rw [h2]

theorem appendDraws_eq (draw : Nat → String) :
    ∀ (n : Nat) (stored : List String) (pos : Nat),
      appendDraws draw n stored pos = (stored ++ drawList draw pos n, pos + n) := by
  intro n
  induction n with
  | zero => intro stored pos; simp [appendDraws, drawList]
  | succ m ih =>
    intro stored pos
    simp only [appendDraws, ih, Prod.mk.injEq]
    constructor
    · simp only [List.append_assoc, List.singleton_append]
      have h1 : m + 1 = 1 + m := by omega
      rw [h1, drawList_append draw 1 pos m]
      simp [drawList]
    · omega

theorem storeBase_ne_nil (stored : List String) : storeBase stored ≠ [] := by
  rcases stored with _ | ⟨a, t⟩ <;> simp [storeBase]

theorem storeBase_of_ne_nil (stored : List String) (h : stored ≠ []) :
    storeBase stored = stored := by
  rcases stored with _ | ⟨a, t⟩
  · exact absurd rfl h
  · simp [storeBase]

/-- Closed form of one `createMultipleWallets` call. -/
theorem createMultipleWallets_eq (draw : Nat → String) (count : Nat)
    (stored : List String) (pos : Nat) :
    createMultipleWallets draw count stored pos
      = ((storeBase stored
            ++ drawList draw pos (count - (storeBase stored).length)).take count,
         storeBase stored
            ++ drawList draw pos (count - (storeBase stored).length),
         pos + (count - (storeBase stored).length)) := by
  simp [createMultipleWallets, appendDraws_eq]

/-- Growing the pool in two steps is the same as growing it directly: the
second call reads back the persisted store and continues the randomness
stream where the first call left it. -/
theorem createMultipleWallets_grow_grow (draw : Nat → String) (m n : Nat)
    (hmn : m ≤ n) (stored : List String) (pos : Nat) :
    createMultipleWallets draw n
        ((createMultipleWallets draw m stored pos).2.1)
        ((createMultipleWallets draw m stored pos).2.2)
      = createMultipleWallets draw n stored pos := by
  have h1 := createMultipleWallets_eq draw m stored pos
  set B := storeBase stored with hB
  set b := B.length with hb
  have hS1 : (createMultipleWallets draw m stored pos).2.1
      = B ++ drawList draw pos (m - b) := by rw [h1]
  have hpos1 : (createMultipleWallets draw m stored pos).2.2
      = pos + (m - b) := by rw [h1]
  have hS1ne : B ++ drawList draw pos (m - b) ≠ [] := by
    intro hc
    exact storeBase_ne_nil stored (List.append_eq_nil.mp hc).1
  rw [hS1, hpos1,
    createMultipleWallets_eq draw n (B ++ drawList draw pos (m - b)) (pos + (m - b)),
    createMultipleWallets_eq draw n stored pos,
    storeBase_of_ne_nil _ hS1ne]
  have hlen : (B ++ drawList draw pos (m - b)).length = b + (m - b) := by
    simp [drawList_length]
  rw [hlen]
  have harith : (m - b) + (n - (b + (m - b))) = n - b := by omega
  have hjoin : B ++ drawList draw pos (m - b)
        ++ drawList draw (pos + (m - b)) (n - (b + (m - b)))
      = B ++ drawList draw pos (n - b) := by
    rw [List.append_assoc, ← drawList_append draw (m - b) pos (n - (b + (m - b))),
      harith]
  rw [hjoin]
  simp only [Prod.mk.injEq]
  have hsb : (storeBase stored).length = b := by rw [← hB]
  refine ⟨trivial, trivial, ?_⟩
  rw [hsb]
  omega

/-- **C7.** Pool growth is idempotent on the prefix: `createMultipleWallets 5`
followed by `createMultipleWallets 8` (reading back the persisted store and
continued randomness) yields the same first 5 mnemonics — hence, mapping any
deterministic derivation, the same first 5 identities and addresses — as
`createMultipleWallets 8` directly; and with no persisted store the first
wallet is always built from the one fixed well-known mnemonic. -/
theorem createMultipleWallets_pool_growth (draw : Nat → String)
    (derive : String → String) (stored : List String) (pos count : Nat)
    (hcount : 1 ≤ count) :
    ((createMultipleWallets draw 8
        ((createMultipleWallets draw 5 stored pos).2.1)
        ((createMultipleWallets draw 5 stored pos).2.2)).1).take 5
      = ((createMultipleWallets draw 8 stored pos).1).take 5 ∧
    (((createMultipleWallets draw 8
        ((createMultipleWallets draw 5 stored pos).2.1)
        ((createMultipleWallets draw 5 stored pos).2.2)).1).take 5).map derive
      = (((createMultipleWallets draw 8 stored pos).1).take 5).map derive ∧
    ((createMultipleWallets draw count [] pos).1).head? = some fixedFirstMnemonic := by
  have h := createMultipleWallets_grow_grow draw 5 8 (by omega) stored pos
  refine ⟨by rw [h], by rw [h], ?_⟩
  rcases count with _ | c
  · omega
  · rw [createMultipleWallets_eq]
    simp [storeBase]

/-- Witness for `createMultipleWallets_pool_growth` with a constant
randomness stream, the identity derivation, the empty store and count 1. -/
theorem createMultipleWallets_pool_growth_witness :
    1 ≤ 1 ∧
    (((createMultipleWallets (fun _ => "r") 8
        ((createMultipleWallets (fun _ => "r") 5 [] 0).2.1)
        ((createMultipleWallets (fun _ => "r") 5 [] 0).2.2)).1).take 5
      = ((createMultipleWallets (fun _ => "r") 8 [] 0).1).take 5 ∧
    (((createMultipleWallets (fun _ => "r") 8
        ((createMultipleWallets (fun _ => "r") 5 [] 0).2.1)
        ((createMultipleWallets (fun _ => "r") 5 [] 0).2.2)).1).take 5).map id
      = (((createMultipleWallets (fun _ => "r") 8 [] 0).1).take 5).map id ∧
    ((createMultipleWallets (fun _ => "r") 1 [] 0).1).head? = some fixedFirstMnemonic) :=
  ⟨by decide,
   createMultipleWallets_pool_growth (fun _ => "r") id [] 0 1 (by decide)⟩

/-! ## Tree fan-out distribution (`distributeRunesToWallets`,
src/src/runes.ts lines 213-273)

One `while` iteration (a round): each source wallet, while target wallets
remain, splices up to 2 targets off the front of the remaining list and
sends to them; `Promise.all` waits for every transfer of the round, then all
popped targets are promoted into the source set.  A round therefore pops
exactly `min (2 * |sources|) |targets|` targets — a prefix of the remaining
list.  With no sources the round builds no transactions and the loop
breaks.  Each round with sources and targets pops at least one target, so
`|targets|` is enough fuel for an exact embedding of the loop. -/

structure DistResult (α : Type) where
  rounds : Nat
  visited : List α
  finalSources : List α
  remaining : List α
  deriving Repr, DecidableEq

/-- The `while (remainingWallets.length > 0)` loop, with the fuel argument
bounding the number of iterations.  `visited` collects the popped targets in
the order they were sent to. -/
def distAux {α : Type} : Nat → List α → List α → DistResult α
  | 0, sources, targets => ⟨0, [], sources, targets⟩
  | fuel + 1, sources, targets =>
    if targets.isEmpty then ⟨0, [], sources, targets⟩
    else if sources.isEmpty then ⟨0, [], sources, targets⟩
    else
      let k := min (2 * sources.length) targets.length
      let r := distAux fuel (sources ++ targets.take k) (targets.drop k)
      ⟨r.rounds + 1, targets.take k ++ r.visited, r.finalSources, r.remaining⟩

/-- `distributeRunesToWallets sourceWallets walletsNeedingRunes`: run the
loop to completion (the fuel `|targets|` is exact: every productive round
removes at least one target). -/
def distributeRunesToWallets {α : Type} (sourceWallets walletsNeedingRunes : List α) :
    DistResult α :=
  distAux walletsNeedingRunes.length sourceWallets walletsNeedingRunes

theorem distAux_nil {α : Type} (f : Nat) (s : List α) :
    distAux f s [] = ⟨0, [], s, []⟩ := by
  cases f <;> simp [distAux]

theorem distAux_step {α : Type} (f : Nat) (s t : List α) (hs : s ≠ []) (ht : t ≠ []) :
    distAux (f + 1) s t
      = ⟨(distAux f (s ++ t.take (min (2 * s.length) t.length))
            (t.drop (min (2 * s.length) t.length))).rounds + 1,
         t.take (min (2 * s.length) t.length)
           ++ (distAux f (s ++ t.take (min (2 * s.length) t.length))
                (t.drop (min (2 * s.length) t.length))).visited,
         (distAux f (s ++ t.take (min (2 * s.length) t.length))
            (t.drop (min (2 * s.length) t.length))).finalSources,
         (distAux f (s ++ t.take (min (2 * s.length) t.length))
            (t.drop (min (2 * s.length) t.length))).remaining⟩ := by
  rcases t with _ | ⟨a, t'⟩
  · exact absurd rfl ht
  rcases s with _ | ⟨b, s'⟩
  · exact absurd rfl hs
  simp [distAux]

/-- With at least one source the loop visits every remaining target (in
list order, hence each exactly once) and terminates with no targets left. -/
theorem distAux_coverage {α : Type} :
    ∀ (fuel : Nat) (s t : List α), s ≠ [] → t.length ≤ fuel →
      (distAux fuel s t).visited = t ∧ (distAux fuel s t).remaining = [] := by
  intro fuel
  induction fuel with
  | zero =>
    intro s t hs hlen
    have : t = [] := List.eq_nil_of_length_eq_zero (Nat.le_zero.mp hlen)
    subst this
    simp [distAux_nil]
  | succ f ih =>
    intro s t hs hlen
    rcases ht : t with _ | ⟨a, t'⟩
    · simp [distAux_nil]
    subst ht
    have htne : (a :: t') ≠ [] := by simp
    rw [distAux_step f s (a :: t') hs htne]
    have hk1 : 1 ≤ min (2 * s.length) (a :: t').length := by
      rcases s with _ | ⟨b, s'⟩
      · exact absurd rfl hs
      simp; omega
    have hs' : s ++ (a :: t').take (min (2 * s.length) (a :: t').length) ≠ [] := by
      intro hc
      exact hs (List.append_eq_nil.mp hc).1
    have hlen' : ((a :: t').drop (min (2 * s.length) (a :: t').length)).length ≤ f := by
      simp only [List.length_drop]
      have : (a :: t').length ≤ f + 1 := hlen
      omega
    obtain ⟨hv, hr⟩ := ih _ _ hs' hlen'
    refine ⟨?_, by simpa using hr⟩
    show (a :: t').take (min (2 * s.length) (a :: t').length)
        ++ (distAux f _ ((a :: t').drop (min (2 * s.length) (a :: t').length))).visited
      = a :: t'
    rw [hv, List.take_append_drop]

/-- Round-count characterization.  Writing `m` for the source count and `n`
for the target count, after each round the source count triples, so the
round count `r` of a full run satisfies `n + m ≤ m * 3 ^ r` (everybody got
funded) and `m * 3 ^ r < 3 * n + 3 * m` (the last round was needed). -/
theorem distAux_rounds_bounds {α : Type} :
    ∀ (fuel : Nat) (s t : List α), s ≠ [] → t ≠ [] → t.length ≤ fuel →
      1 ≤ (distAux fuel s t).rounds ∧
      t.length + s.length ≤ s.length * 3 ^ (distAux fuel s t).rounds ∧
      s.length * 3 ^ (distAux fuel s t).rounds
        < 3 * t.length + 3 * s.length := by
  intro fuel
  induction fuel with
  | zero =>
    intro s t hs ht hlen
    exact absurd (List.eq_nil_of_length_eq_zero (Nat.le_zero.mp hlen)) ht
  | succ f ih =>
    intro s t hs ht hlen
    have hm1 : 1 ≤ s.length := List.length_pos.mpr hs
    have hn1 : 1 ≤ t.length := List.length_pos.mpr ht
    rw [distAux_step f s t hs ht]
    by_cases hcase : t.length ≤ 2 * s.length
    · have hk : min (2 * s.length) t.length = t.length := Nat.min_eq_right hcase
      rw [hk, List.drop_length, distAux_nil]
      dsimp only
      refine ⟨by omega, ?_, ?_⟩
      · rw [pow_one]; omega
      · rw [pow_one]; omega
    · have hk : min (2 * s.length) t.length = 2 * s.length :=
        Nat.min_eq_left (by omega)
      rw [hk]
      have htake : (t.take (2 * s.length)).length = 2 * s.length := by
        rw [List.length_take]
        exact Nat.min_eq_left (by omega)
      have hs'len : (s ++ t.take (2 * s.length)).length = 3 * s.length := by
        rw [List.length_append, htake]; omega
      have hs'ne : s ++ t.take (2 * s.length) ≠ [] := by
        intro hc
        exact hs (List.append_eq_nil.mp hc).1
      have hrestlen : (t.drop (2 * s.length)).length = t.length - 2 * s.length := by
        rw [List.length_drop]
      have hrestne : t.drop (2 * s.length) ≠ [] := by
        intro hc
        have := congrArg List.length hc
        rw [hrestlen] at this
        simp at this
        omega
      have hrestfuel : (t.drop (2 * s.length)).length ≤ f := by
        rw [hrestlen]
        have : t.length ≤ f + 1 := hlen
        omega
      obtain ⟨hr1, hub, hlb⟩ := ih _ _ hs'ne hrestne hrestfuel
      rw [hs'len, hrestlen] at hub hlb
      dsimp only
      set r := (distAux f (s ++ t.take (2 * s.length)) (t.drop (2 * s.length))).rounds
        with hr
      refine ⟨by omega, ?_, ?_⟩
      · have h1 : s.length * 3 ^ (r + 1) = 3 * (s.length * 3 ^ r) := by ring
        have h2 : 3 * s.length * 3 ^ r = 3 * (s.length * 3 ^ r) := by ring
        rw [h2] at hub
        omega
      · have h1 : s.length * 3 ^ (r + 1) = 3 * (s.length * 3 ^ r) := by ring
        have h2 : 3 * s.length * 3 ^ r = 3 * (s.length * 3 ^ r) := by ring
        rw [h2] at hlb
        omega

/-- With one source wallet the distribution finishes in exactly
`⌈log₃(targetCount + 1)⌉` rounds. -/
theorem distributeRunes_single_source_rounds {α : Type} (src : α)
    (targets : List α) (ht : targets ≠ []) :
    (distributeRunesToWallets [src] targets).rounds
      = Nat.clog 3 (targets.length + 1) := by
  obtain ⟨hr1, hub, hlb⟩ := distAux_rounds_bounds targets.length [src] targets
    (by simp) ht le_rfl
  simp only [List.length_cons, List.length_nil, Nat.zero_add, one_mul] at hub hlb
  set r := (distAux targets.length [src] targets).rounds with hrdef
  have hclog_le : Nat.clog 3 (targets.length + 1) ≤ r :=
    (Nat.le_pow_iff_clog_le (by norm_num)).mp hub
  obtain ⟨j, hj⟩ : ∃ j, r = j + 1 := ⟨r - 1, by omega⟩
  have hpow : (3 : Nat) ^ r = 3 ^ j * 3 := by rw [hj, pow_succ]
  have hjlt : (3 : Nat) ^ j < targets.length + 1 := by
    rw [hpow] at hlb
    omega
  have hlt : j < Nat.clog 3 (targets.length + 1) :=
    (Nat.pow_lt_iff_lt_clog (by norm_num)).mp hjlt
  show r = Nat.clog 3 (targets.length + 1)
  omega

/-- **C3, counterexample.** With 1 source and 3 targets the loop takes 2
rounds (as the spec scenario itself states), but the claimed formula
`⌈log₂ targetCount⌉ + 1` gives 3. -/
theorem distributeRunes_rounds_formula_cex :
    (distributeRunesToWallets [(0 : Nat)] [1, 2, 3]).rounds = 2 ∧
    Nat.clog 2 ([1, 2, 3] : List Nat).length + 1 = 3 ∧
    (distributeRunesToWallets [(0 : Nat)] [1, 2, 3]).rounds
      ≠ Nat.clog 2 ([1, 2, 3] : List Nat).length + 1 := by
  have hclog : Nat.clog 2 3 = 2 := by
    rw [Nat.clog_of_two_le (by norm_num) (by norm_num)]
    norm_num
    rw [Nat.clog_of_two_le (by norm_num) (by norm_num)]
    norm_num [Nat.clog_one_right]
  have hrounds : (distributeRunesToWallets [(0 : Nat)] [1, 2, 3]).rounds = 2 := by
    decide
  refine ⟨hrounds, ?_, ?_⟩
  · simp [hclog]
  · rw [hrounds]
    simp [hclog]

/-- **C3, amended.** With a nonempty source set and `branchingFactor = 2`,
`distributeRunesToWallets` sends to every target wallet exactly once (the
visited list is exactly the target list) and terminates with no targets
remaining; in the absence of failures the single-source round count is
`⌈log₃(targetCount + 1)⌉` (not `⌈log₂ targetCount⌉ + 1`); in particular
with 1 source and 3 targets it takes exactly 2 rounds. -/
theorem distributeRunes_coverage_and_rounds {α : Type} (src : α)
    (sources targets : List α) (hs : sources ≠ []) (ht : targets ≠ []) :
    (distributeRunesToWallets sources targets).visited = targets ∧
    (distributeRunesToWallets sources targets).remaining = [] ∧
    (distributeRunesToWallets [src] targets).rounds
      = Nat.clog 3 (targets.length + 1) ∧
    (distributeRunesToWallets [(0 : Nat)] [1, 2, 3]).rounds = 2 := by
  obtain ⟨hv, hr⟩ := distAux_coverage targets.length sources targets hs le_rfl
  exact ⟨hv, hr, distributeRunes_single_source_rounds src targets ht,
    distributeRunes_rounds_formula_cex.1⟩

/-- Witness for `distributeRunes_coverage_and_rounds` at 1 source and 3
targets. -/
theorem distributeRunes_coverage_and_rounds_witness :
    ([(0 : Nat)] : List Nat) ≠ [] ∧
    (((distributeRunesToWallets [(0 : Nat)] [1, 2, 3]).visited = [1, 2, 3]) ∧
      (distributeRunesToWallets [(0 : Nat)] [1, 2, 3]).remaining = [] ∧
      (distributeRunesToWallets [(0 : Nat)] [1, 2, 3]).rounds
        = Nat.clog 3 (([1, 2, 3] : List Nat).length + 1) ∧
      (distributeRunesToWallets [(0 : Nat)] [1, 2, 3]).rounds = 2) :=
  ⟨by decide,
   distributeRunes_coverage_and_rounds (0 : Nat) [0] [1, 2, 3]
     (by decide) (by decide)⟩

/-! ## Batched load test and statistics (`runMultiWalletSwapLoadTest`,
src/tests/tps/index.ts lines 119-250)

The source prepares transactions for each wallet in batches of 20 (the
accumulated promises are awaited with `Promise.all` once `batch >= 20`, so a
construction failure rejects the batch and propagates out of the function),
then performs each batch's submissions; `performOperationWithWallet` catches
its own errors and always yields a `{success, timeMs, error?}` record.  The
results are folded into `LoadTestStats`, and `avgTimeMs` is set to
`totalTimeMs / totalOperations` at the end (exact rational here; the `tps`
field, derived from wall-clock time, is outside the embedding).  Preparation
outcomes are embedded as `Except`-valued functions and `Promise.all` as a
first-error traversal. -/

structure OpResult where
  success : Bool
  timeMs : Nat
  error : Option String
  deriving Repr, DecidableEq

structure LoadTestStats where
  totalOperations : Nat
  successfulOperations : Nat
  failedOperations : Nat
  totalTimeMs : Nat
  minTimeMs : Nat
  maxTimeMs : Nat
  avgTimeMs : ℚ
  operationTimes : List Nat
  errors : List String
  deriving Repr, DecidableEq

/-- The stats record as first initialized (`Number.MAX_SAFE_INTEGER` for the
minimum): `totalOperations` is set to `wallets.length` up front. -/
def initStats (walletCount : Nat) : LoadTestStats :=
  { totalOperations := walletCount
    successfulOperations := 0
    failedOperations := 0
    totalTimeMs := 0
    minTimeMs := 9007199254740991
    maxTimeMs := 0
    avgTimeMs := 0
    operationTimes := []
    errors := [] }

/-- Folding one operation result into the stats (the per-result body of the
result-processing loop). -/
def recordResult (stats : LoadTestStats) (r : OpResult) : LoadTestStats :=
  let stats1 :=
    if r.success then
      { stats with successfulOperations := stats.successfulOperations + 1 }
    else
      { stats with
          failedOperations := stats.failedOperations + 1,
          errors := stats.errors ++ (match r.error with
            | some e => [e]
            | none => []) }
  { stats1 with
      operationTimes := stats1.operationTimes ++ [r.timeMs],
      totalTimeMs := stats1.totalTimeMs + r.timeMs,
      minTimeMs := min stats1.minTimeMs r.timeMs,
      maxTimeMs := max stats1.maxTimeMs r.timeMs }

/-- Split the wallet list into consecutive batches of `size` (the
`batch >= 20` flush plus the final partial batch); the fuel is an upper
bound on the number of batches. -/
def chunkAux {β : Type} (size : Nat) : Nat → List β → List (List β)
  | _, [] => []
  | 0, l => [l]
  | f + 1, l => l.take size :: chunkAux size f (l.drop size)

/-- Fold every batch of results into the stats and set the average
(`totalTimeMs / totalOperations`). -/
def aggregateStats (walletCount : Nat) (totalResults : List (List OpResult)) :
    LoadTestStats :=
  let stats := totalResults.foldl (fun acc batch => batch.foldl recordResult acc)
    (initStats walletCount)
  { stats with avgTimeMs := (stats.totalTimeMs : ℚ) / (stats.totalOperations : ℚ) }

/-- `Promise.all`: the first rejection rejects the whole batch. -/
def promiseAll {A : Type} : List (Except String A) → Except String (List A)
  | [] => Except.ok []
  | Except.error e :: _ => Except.error e
  | Except.ok a :: xs =>
    match promiseAll xs with
    | Except.error e => Except.error e
    | Except.ok rest => Except.ok (a :: rest)

/-- The construction phase: batches are prepared strictly in order, each
batch's constructions awaited together; a rejected batch propagates its
error out of the whole run. -/
def prepareBatches {W P : Type} (prepare : W → Except String P) :
    List (List W) → Except String (List (List P))
  | [] => Except.ok []
  | b :: bs =>
    match promiseAll (b.map prepare), prepareBatches prepare bs with
    | Except.error e, _ => Except.error e
    | Except.ok _, Except.error e => Except.error e
    | Except.ok pb, Except.ok rest => Except.ok (pb :: rest)

/-- `runMultiWalletSwapLoadTest`: construct all pipelines in batches of 20
(aborting on a construction failure), then perform every submission (each
submission yields an `OpResult`, never a rejection) and aggregate. -/
def runMultiWalletSwapLoadTest {W P : Type} (wallets : List W)
    (prepare : W → Except String P) (perform : P → OpResult) :
    Except String LoadTestStats :=
  match prepareBatches prepare (chunkAux 20 wallets.length wallets) with
  | Except.error e => Except.error e
  | Except.ok opBatches =>
    Except.ok (aggregateStats wallets.length
      (opBatches.map (fun b => b.map perform)))

theorem recordResult_fields (st : LoadTestStats) (r : OpResult) :
    (recordResult st r).totalOperations = st.totalOperations ∧
    (recordResult st r).successfulOperations + (recordResult st r).failedOperations
      = st.successfulOperations + st.failedOperations + 1 ∧
    (recordResult st r).totalTimeMs = st.totalTimeMs + r.timeMs ∧
    (recordResult st r).minTimeMs = min st.minTimeMs r.timeMs ∧
    (recordResult st r).maxTimeMs = max st.maxTimeMs r.timeMs := by
  cases hr : r.success <;> simp [recordResult, hr] <;> omega

theorem foldl_recordResult_inv :
    ∀ (rs : List OpResult) (st : LoadTestStats),
      (rs.foldl recordResult st).totalOperations = st.totalOperations ∧
      (rs.foldl recordResult st).successfulOperations
          + (rs.foldl recordResult st).failedOperations
        = st.successfulOperations + st.failedOperations + rs.length ∧
      (rs.foldl recordResult st).totalTimeMs
        = st.totalTimeMs + (rs.map OpResult.timeMs).sum ∧
      (rs.foldl recordResult st).minTimeMs ≤ st.minTimeMs ∧
      st.maxTimeMs ≤ (rs.foldl recordResult st).maxTimeMs ∧
      (∀ r ∈ rs, (rs.foldl recordResult st).minTimeMs ≤ r.timeMs ∧
        r.timeMs ≤ (rs.foldl recordResult st).maxTimeMs) := by
  intro rs
  induction rs with
  | nil => intro st; simp
  | cons r rest ih =>
    intro st
    obtain ⟨h1, h2, h3, h4, h5, h6⟩ := ih (recordResult st r)
    obtain ⟨g1, g2, g3, g4, g5⟩ := recordResult_fields st r
    simp only [List.foldl_cons, List.map_cons, List.sum_cons, List.length_cons,
      List.mem_cons]
    have hminr : (rest.foldl recordResult (recordResult st r)).minTimeMs ≤ r.timeMs := by
      calc (rest.foldl recordResult (recordResult st r)).minTimeMs
          ≤ (recordResult st r).minTimeMs := h4
        _ ≤ r.timeMs := by rw [g4]; exact min_le_right _ _
    have hmaxr : r.timeMs ≤ (rest.foldl recordResult (recordResult st r)).maxTimeMs := by
      calc r.timeMs ≤ (recordResult st r).maxTimeMs := by
            rw [g5]; exact le_max_right _ _
        _ ≤ (rest.foldl recordResult (recordResult st r)).maxTimeMs := h5
    refine ⟨by rw [h1, g1], by rw [h2, g2]; omega, by rw [h3, g3]; omega, ?_, ?_, ?_⟩
    · calc (rest.foldl recordResult (recordResult st r)).minTimeMs
          ≤ (recordResult st r).minTimeMs := h4
        _ ≤ st.minTimeMs := by rw [g4]; exact min_le_left _ _
    · calc st.maxTimeMs ≤ (recordResult st r).maxTimeMs := by
            rw [g5]; exact le_max_left _ _
        _ ≤ (rest.foldl recordResult (recordResult st r)).maxTimeMs := h5
    · rintro x (rfl | hx)
      · exact ⟨hminr, hmaxr⟩
      · exact h6 x hx

theorem foldl_batches_eq :
    ∀ (bss : List (List OpResult)) (st : LoadTestStats),
      bss.foldl (fun acc b => b.foldl recordResult acc) st
        = bss.flatten.foldl recordResult st := by
  intro bss
  induction bss with
  | nil => intro st; simp
  | cons b bs ih => intro st; simp [List.foldl_append, ih]

theorem chunkAux_join {β : Type} (size : Nat) (hsize : 1 ≤ size) :
    ∀ (f : Nat) (l : List β), l.length ≤ f → (chunkAux size f l).flatten = l := by
  intro f
  induction f with
  | zero =>
    intro l hl
    have : l = [] := List.eq_nil_of_length_eq_zero (Nat.le_zero.mp hl)
    subst this
    simp [chunkAux]
  | succ g ih =>
    intro l hl
    rcases l with _ | ⟨a, l'⟩
    · simp [chunkAux]
    · show ((a :: l').take size :: chunkAux size g ((a :: l').drop size)).flatten = a :: l'
      rw [List.flatten_cons, ih ((a :: l').drop size)
        (by simp only [List.length_drop]; simp at hl ⊢; omega)]
      exact List.take_append_drop size (a :: l')

theorem promiseAll_ok_length {A : Type} :
    ∀ (xs : List (Except String A)) (ys : List A),
      promiseAll xs = Except.ok ys → ys.length = xs.length := by
  intro xs
  induction xs with
  | nil =>
    intro ys h
    simp only [promiseAll, Except.ok.injEq] at h
    subst h
    rfl
  | cons x rest ih =>
    intro ys h
    cases x with
    | error e => simp [promiseAll] at h
    | ok a =>
      rw [promiseAll] at h
      cases hrest : promiseAll rest with
      | error e => rw [hrest] at h; simp at h
      | ok bs =>
        rw [hrest] at h
        simp only [Except.ok.injEq] at h
        subst h
        simp [ih bs hrest]

theorem promiseAll_map_ok {W P : Type} (prepare : W → Except String P)
    (prep : W → P) :
    ∀ (b : List W), (∀ x ∈ b, prepare x = Except.ok (prep x)) →
      promiseAll (b.map prepare) = Except.ok (b.map prep) := by
  intro b
  induction b with
  | nil => intro _; rfl
  | cons x rest ih =>
    intro h
    have hx := h x (by simp)
    simp only [List.map_cons]
    rw [hx, promiseAll, ih (fun y hy => h y (by simp [hy]))]

theorem prepareBatches_ok_lengths {W P : Type} (prepare : W → Except String P) :
    ∀ (bs : List (List W)) (pbs : List (List P)),
      prepareBatches prepare bs = Except.ok pbs →
      pbs.map List.length = bs.map List.length := by
  intro bs
  induction bs with
  | nil =>
    intro pbs h
    simp only [prepareBatches, Except.ok.injEq] at h
    subst h
    rfl
  | cons b rest ih =>
    intro pbs h
    rw [prepareBatches] at h
    cases hpb : promiseAll (b.map prepare) with
    | error e => rw [hpb] at h; simp at h
    | ok pb =>
      rw [hpb] at h
      cases hrest : prepareBatches prepare rest with
      | error e => rw [hrest] at h; simp at h
      | ok prest =>
        rw [hrest] at h
        simp only [Except.ok.injEq] at h
        subst h
        have hlen : pb.length = b.length := by
          have := promiseAll_ok_length (b.map prepare) pb hpb
          simpa using this
        simp [hlen, ih prest hrest]

theorem prepareBatches_all_ok {W P : Type} (prepare : W → Except String P)
    (prep : W → P) :
    ∀ (bs : List (List W)), (∀ b ∈ bs, ∀ x ∈ b, prepare x = Except.ok (prep x)) →
      prepareBatches prepare bs = Except.ok (bs.map (List.map prep)) := by
  intro bs
  induction bs with
  | nil => intro _; rfl
  | cons b rest ih =>
    intro h
    rw [prepareBatches, promiseAll_map_ok prepare prep b (h b (by simp)),
      ih (fun c hc x hx => h c (by simp [hc]) x hx)]
    rfl

theorem aggregateStats_spec (wc : Nat) (rbs : List (List OpResult)) :
    (aggregateStats wc rbs).totalOperations = wc ∧
    (aggregateStats wc rbs).successfulOperations
      + (aggregateStats wc rbs).failedOperations = rbs.flatten.length ∧
    (aggregateStats wc rbs).totalTimeMs = (rbs.flatten.map OpResult.timeMs).sum ∧
    (∀ r ∈ rbs.flatten, (aggregateStats wc rbs).minTimeMs ≤ r.timeMs ∧
      r.timeMs ≤ (aggregateStats wc rbs).maxTimeMs) ∧
    (aggregateStats wc rbs).avgTimeMs
      = ((aggregateStats wc rbs).totalTimeMs : ℚ)
        / ((aggregateStats wc rbs).totalOperations : ℚ) := by
  obtain ⟨h1, h2, h3, h4, h5, h6⟩ :=
    foldl_recordResult_inv rbs.flatten (initStats wc)
  simp only [aggregateStats, foldl_batches_eq]
  refine ⟨h1, by rw [h2]; simp [initStats], by rw [h3]; simp [initStats], h6, trivial⟩

/-- **C5.** Every completed run reports `successfulOperations +
failedOperations = totalOperations`, and when `totalOperations > 0` also
`minTimeMs ≤ avgTimeMs ≤ maxTimeMs`; in particular a run over 10 identities
whose pipelines all succeed reports total 10, succeeded 10, failed 0. -/
theorem loadTest_stats_consistency {W P : Type} (wallets : List W)
    (prepare : W → Except String P) (perform : P → OpResult)
    (st : LoadTestStats)
    (hrun : runMultiWalletSwapLoadTest wallets prepare perform = Except.ok st) :
    st.successfulOperations + st.failedOperations = st.totalOperations ∧
    (0 < st.totalOperations →
      (st.minTimeMs : ℚ) ≤ st.avgTimeMs ∧ st.avgTimeMs ≤ (st.maxTimeMs : ℚ)) ∧
    (runMultiWalletSwapLoadTest (List.range 10) (fun w => Except.ok w)
        (fun _ => ({ success := true, timeMs := 5, error := none } : OpResult))).toOption.map
        (fun s => (s.totalOperations, s.successfulOperations, s.failedOperations))
      = some (10, 10, 0) := by
  simp only [runMultiWalletSwapLoadTest] at hrun
  cases hpb : prepareBatches prepare (chunkAux 20 wallets.length wallets) with
  | error e =>
    rw [hpb] at hrun
    simp at hrun
  | ok opBatches =>
    rw [hpb] at hrun
    simp only [Except.ok.injEq] at hrun
    obtain ⟨hTot, hSF, hT, hMinMax, hAvg⟩ :=
      aggregateStats_spec wallets.length (opBatches.map (fun b => b.map perform))
    rw [hrun] at hTot hSF hT hMinMax hAvg
    have hchunks : (chunkAux 20 wallets.length wallets).flatten = wallets :=
      chunkAux_join 20 (by omega) wallets.length wallets le_rfl
    have hlens : opBatches.map List.length
        = (chunkAux 20 wallets.length wallets).map List.length :=
      prepareBatches_ok_lengths prepare _ opBatches hpb
    have hflatlen :
        ((opBatches.map (fun b => b.map perform)).flatten).length = wallets.length := by
      rw [List.length_flatten]
      have hmm : (opBatches.map (fun b => b.map perform)).map List.length
          = opBatches.map List.length := by
        simp [List.map_map, Function.comp]
      rw [hmm, hlens, ← List.length_flatten, hchunks]
    refine ⟨by omega, ?_, by decide⟩
    intro hpos
    have hn : 0 < wallets.length := by omega
    have hlow : ∀ x ∈ ((opBatches.map (fun b => b.map perform)).flatten).map
        OpResult.timeMs, st.minTimeMs ≤ x := by
      intro x hx
      obtain ⟨r, hr, rfl⟩ := List.mem_map.mp hx
      exact (hMinMax r hr).1
    have hupp : ∀ x ∈ ((opBatches.map (fun b => b.map perform)).flatten).map
        OpResult.timeMs, x ≤ st.maxTimeMs := by
      intro x hx
      obtain ⟨r, hr, rfl⟩ := List.mem_map.mp hx
      exact (hMinMax r hr).2
    have h1 := List.card_nsmul_le_sum _ st.minTimeMs hlow
    have h2 := List.sum_le_card_nsmul _ st.maxTimeMs hupp
    rw [smul_eq_mul, List.length_map, hflatlen, ← hT] at h1 h2
    constructor
    · rw [hAvg, hTot, le_div_iff₀ (by exact_mod_cast hn)]
      calc (st.minTimeMs : ℚ) * (wallets.length : ℚ)
          = ((wallets.length * st.minTimeMs : Nat) : ℚ) := by push_cast; ring
        _ ≤ (st.totalTimeMs : ℚ) := by exact_mod_cast h1
    · rw [hAvg, hTot, div_le_iff₀ (by exact_mod_cast hn)]
      calc (st.totalTimeMs : ℚ)
          ≤ ((wallets.length * st.maxTimeMs : Nat) : ℚ) := by exact_mod_cast h2
        _ = (st.maxTimeMs : ℚ) * (wallets.length : ℚ) := by push_cast; ring

/-- Witness for `loadTest_stats_consistency`: one wallet, successful
construction and submission. -/
theorem loadTest_stats_consistency_witness :
    runMultiWalletSwapLoadTest [()] (fun _ => Except.ok ())
        (fun _ => ({ success := true, timeMs := 5, error := none } : OpResult))
      = Except.ok
          (aggregateStats 1 [[{ success := true, timeMs := 5, error := none }]]) ∧
    ((aggregateStats 1
          [[{ success := true, timeMs := 5, error := none }]]).successfulOperations
        + (aggregateStats 1
            [[{ success := true, timeMs := 5, error := none }]]).failedOperations
        = (aggregateStats 1
            [[{ success := true, timeMs := 5, error := none }]]).totalOperations ∧
      (0 < (aggregateStats 1
          [[{ success := true, timeMs := 5, error := none }]]).totalOperations →
        ((aggregateStats 1
            [[{ success := true, timeMs := 5, error := none }]]).minTimeMs : ℚ)
          ≤ (aggregateStats 1
              [[{ success := true, timeMs := 5, error := none }]]).avgTimeMs ∧
        (aggregateStats 1
            [[{ success := true, timeMs := 5, error := none }]]).avgTimeMs
          ≤ ((aggregateStats 1
              [[{ success := true, timeMs := 5, error := none }]]).maxTimeMs : ℚ)) ∧
      (runMultiWalletSwapLoadTest (List.range 10) (fun w => Except.ok w)
          (fun _ => ({ success := true, timeMs := 5, error := none } : OpResult))).toOption.map
          (fun s => (s.totalOperations, s.successfulOperations, s.failedOperations))
        = some (10, 10, 0)) :=
  ⟨rfl,
   loadTest_stats_consistency [()] (fun _ => Except.ok ())
     (fun _ => { success := true, timeMs := 5, error := none })
     (aggregateStats 1 [[{ success := true, timeMs := 5, error := none }]]) rfl⟩

/-- **C6, counterexample.** With 10 identities and the 6th identity's
pipeline construction failing with `InsufficientFunding`, the whole run
rejects with that error: no statistics are produced, the other 9 identities
are not counted as successes — the construction failure is not isolated. -/
theorem loadTest_construction_failure_aborts_cex :
    runMultiWalletSwapLoadTest (List.range 10)
        (fun w => if w = 5 then Except.error "InsufficientFunding" else Except.ok w)
        (fun _ => ({ success := true, timeMs := 1, error := none } : OpResult))
      = Except.error "InsufficientFunding" := by
  rfl

/-- **C6, amended.** A construction-time failure rejects the batch's
`Promise.all` and aborts the whole run; only submission-time failures are
isolated: when every identity's construction succeeds the run always
completes with the aggregate of the submission outcomes, and with 10
identities of which exactly one submission fails the report counts 9
successes and 1 failure out of 10. -/
theorem loadTest_failure_isolation {W P : Type} (wallets : List W)
    (prepare : W → Except String P) (prep : W → P) (perform : P → OpResult)
    (hprep : ∀ w ∈ wallets, prepare w = Except.ok (prep w)) :
    runMultiWalletSwapLoadTest wallets prepare perform
      = Except.ok (aggregateStats wallets.length
          ((chunkAux 20 wallets.length wallets).map
            (fun b => (b.map prep).map perform))) ∧
    (runMultiWalletSwapLoadTest (List.range 10) (fun w => Except.ok w)
        (fun w => if w = 5 then
            ({ success := false, timeMs := 1,
               error := some "InsufficientFunding" } : OpResult)
          else { success := true, timeMs := 1, error := none })).toOption.map
        (fun s => (s.totalOperations, s.successfulOperations, s.failedOperations))
      = some (10, 9, 1) := by
  constructor
  · have hall : ∀ b ∈ chunkAux 20 wallets.length wallets, ∀ x ∈ b,
        prepare x = Except.ok (prep x) := by
      intro b hb x hx
      apply hprep
      have hmem : x ∈ (chunkAux 20 wallets.length wallets).flatten :=
        List.mem_flatten.mpr ⟨b, hb, hx⟩
      rwa [chunkAux_join 20 (by omega) wallets.length wallets le_rfl] at hmem
    simp only [runMultiWalletSwapLoadTest]
    rw [prepareBatches_all_ok prepare prep _ hall]
    simp [List.map_map, Function.comp]
  · decide

/-- Witness for `loadTest_failure_isolation`: one wallet whose construction
and submission both succeed. -/
theorem loadTest_failure_isolation_witness :
    runMultiWalletSwapLoadTest [()] (fun _ => Except.ok ())
        (fun _ => ({ success := true, timeMs := 1, error := none } : OpResult))
      = Except.ok (aggregateStats ([()] : List Unit).length
          ((chunkAux 20 ([()] : List Unit).length [()]).map
            (fun b => (b.map (fun _ => ())).map
              (fun _ => ({ success := true, timeMs := 1, error := none } : OpResult))))) ∧
    (runMultiWalletSwapLoadTest (List.range 10) (fun w => Except.ok w)
        (fun w => if w = 5 then
            ({ success := false, timeMs := 1,
               error := some "InsufficientFunding" } : OpResult)
          else { success := true, timeMs := 1, error := none })).toOption.map
        (fun s => (s.totalOperations, s.successfulOperations, s.failedOperations))
      = some (10, 9, 1) :=
  loadTest_failure_isolation [()] (fun _ => Except.ok ()) (fun _ => ())
    (fun _ => { success := true, timeMs := 1, error := none })
    (fun _ _ => rfl)
